import Mathlib

/-!
Verification of the futhorc static site generator core.

Go source is shallowly embedded: byte buffers and strings become `List Char`
or `String`, Go slices become `List`, machine `int64` order keys become `Int`,
fallible paths return explicit outcome types, and the one reachable run-time
panic in the source is modelled as an explicit outcome constructor.
-/

namespace Futhorc

/-! ## Byte-buffer primitives

`isPrefixList pat l` models `bytes.HasPrefix(l, pat)`; `firstIndexOf pat l`
models `bytes.Index(l, pat)` / `strings.Index`, returning `none` where Go
returns `-1` and `some i` for the first occurrence index `i`. -/

def isPrefixList : List Char → List Char → Bool
  | [], _ => true
  | _ :: _, [] => false
  | a :: as, b :: bs => a == b && isPrefixList as bs

def firstIndexOf (pat : List Char) : List Char → Option Nat
  | [] => if isPrefixList pat [] then some 0 else none
  | c :: t =>
    if isPrefixList pat (c :: t) then some 0
    else (firstIndexOf pat t).map (· + 1)

/-! ## Snippet extraction

From `snippet` in the post page converter:

```go
func snippet(data template.HTML) template.HTML {
    if idx := strings.Index(string(data), "<!-- more -->"); idx >= 0 {
        return data[:idx]
    } else if idx := strings.Index(string(data), "</p>"); idx >= 0 {
        const max = 1024
        if idx > max { idx = max }
        return data[:idx]
    }
    return ""
}
```
-/

def moreMarker : List Char := "<!-- more -->".toList

def closingParagraph : List Char := "</p>".toList

def snippet (data : List Char) : List Char :=
  match firstIndexOf moreMarker data with
  | some idx => data.take idx
  | none =>
    match firstIndexOf closingParagraph data with
    | some idx => data.take (if 1024 < idx then 1024 else idx)
    | none => []

/-- The snippet rule as the specification words it: the body prefix up to the
first `<!-- more -->` marker, or, failing that, the body up to
`min(indexOf "</p>", 1024)`, or empty. Stated separately from `snippet`
(which is translated from the Go source) so that the two can be compared. -/
def snippetSpec (data : List Char) : List Char :=
  match firstIndexOf moreMarker data with
  | some idx => data.take idx
  | none =>
    match firstIndexOf closingParagraph data with
    | some idx => data.take (min idx 1024)
    | none => []

/-! ## Post parsing

From `ParsePost`:

```go
func ParsePost(data []byte, sourcePath string) (p Post, err error) {
    var idx int
    if !bytes.HasPrefix(data, startFence) {        // startFence = "---\n"
        err = ErrFrontmatterMissingStartFence
        goto ERROR
    }
    idx = bytes.Index(data, endFence)              // endFence = "\n---\n"
    if idx < 1 {
        err = ErrFrontmatterMissingEndFence
        goto ERROR
    }
    if err = yaml.Unmarshal(data[len(startFence):idx], &p.Frontmatter); ...
    data = data[idx+len(endFence):]
    ...
}
```

The YAML decode of the frontmatter bytes is an external collaborator and is
abstracted: the `ok` outcome carries the raw frontmatter slice that Go hands
to `yaml.Unmarshal` together with the body slice.  Note that `bytes.Index`
searches the whole buffer from offset 0, and that the Go slice expression
`data[len(startFence):idx]` panics at run time when `idx < len(startFence)`;
that panic is modelled by the `panicSliceBounds` outcome. -/

inductive ParseOutcome where
  | ok (frontmatterRaw : List Char) (body : List Char)
  | errMissingStartFence
  | errMissingEndFence
  | panicSliceBounds
  deriving DecidableEq

def startFence : List Char := "---\n".toList

def endFence : List Char := "\n---\n".toList

def parsePost (data : List Char) : ParseOutcome :=
  if isPrefixList startFence data then
    match firstIndexOf endFence data with
    | none => .errMissingEndFence
    | some idx =>
      if idx < 1 then .errMissingEndFence
      else if idx < startFence.length then .panicSliceBounds
      else
        .ok ((data.drop startFence.length).take (idx - startFence.length))
          (data.drop (idx + endFence.length))
  else .errMissingStartFence

/-! ## Page data model

`Page[T]` and `OrderedPage[T]` from the source.  URLs (`*url.URL` in Go)
are modelled as their string renderings; absent links (`nil` pointers) are
`none`. -/

structure PageData (T : Type) where
  content : T
  order : Int
  path : String
  url : String
  deriving DecidableEq

structure OrderedPage (T : Type) where
  page : PageData T
  next : Option String := none
  prev : Option String := none
  deriving DecidableEq

/-! ## Ordering and cross-linking

From `OrderPages`:

```go
func OrderPages[T any](orderedPages []OrderedPage[T]) {
    if len(orderedPages) < 1 { return }
    slices.SortFunc(orderedPages, func(a, b OrderedPage[T]) int {
        return b.Compare(&a.Page)
    })
    for i := range orderedPages[1:] {
        orderedPages[i].Prev = orderedPages[i+1].URL
    }
    for i := range orderedPages[:len(orderedPages)-1] {
        orderedPages[i+1].Next = orderedPages[i].URL
    }
}
```

`Page.Compare` compares the `Order` keys, so the comparator sorts by strictly
descending order key and leaves ties in an arbitrary order.  `slices.SortFunc`
is an unstable comparison sort whose contract is only "the slice becomes a
permutation of itself that is sorted with respect to the comparator"; it is
modelled here by an insertion sort, which satisfies the identical contract.
The two link loops mutate only the `Prev`/`Next` fields (never `URL`), so they
are modelled as two passes `setPrevLinks` / `setNextLinks` over the sorted
list; the head's `Next` and the tail's `Prev` are left untouched, exactly as
in the Go loops. -/

def insertByOrderDesc {T : Type} (p : OrderedPage T) :
    List (OrderedPage T) → List (OrderedPage T)
  | [] => [p]
  | q :: rest =>
    if q.page.order < p.page.order then p :: q :: rest
    else q :: insertByOrderDesc p rest

def sortByOrderDesc {T : Type} (l : List (OrderedPage T)) : List (OrderedPage T) :=
  l.foldr insertByOrderDesc []

def setPrevLinks {T : Type} : List (OrderedPage T) → List (OrderedPage T)
  | [] => []
  | [p] => [p]
  | p :: q :: rest => { p with prev := some q.page.url } :: setPrevLinks (q :: rest)

def setNextLinksFrom {T : Type} (u : String) :
    List (OrderedPage T) → List (OrderedPage T)
  | [] => []
  | q :: rest => { q with next := some u } :: setNextLinksFrom q.page.url rest

def setNextLinks {T : Type} : List (OrderedPage T) → List (OrderedPage T)
  | [] => []
  | p :: rest => p :: setNextLinksFrom p.page.url rest

/-- The Go `OrderPages` mutates its slice in place; the model returns the slice's
final contents. -/
def orderPages {T : Type} (l : List (OrderedPage T)) : List (OrderedPage T) :=
  if l.length < 1 then l
  else setNextLinks (setPrevLinks (sortByOrderDesc l))

/-! Positional link predicates used to state the cross-linking claims.
`NextChain u l` says the head of `l` has next link `u` and every later
element's next link is the URL of its immediate predecessor; `PrevChain l`
says every element's prev link is the URL of its immediate successor and the
last element's prev link is absent. -/

def NextChain {T : Type} : Option String → List (OrderedPage T) → Prop
  | _, [] => True
  | u, p :: rest => p.next = u ∧ NextChain (some p.page.url) rest

def PrevChain {T : Type} : List (OrderedPage T) → Prop
  | [] => True
  | [p] => p.prev = none
  | p :: q :: rest => p.prev = some q.page.url ∧ PrevChain (q :: rest)

def nextChainDec {T : Type} :
    (u : Option String) → (l : List (OrderedPage T)) → Decidable (NextChain u l)
  | _, [] => .isTrue trivial
  | u, p :: rest =>
    @instDecidableAnd _ _ (by infer_instance) (nextChainDec (some p.page.url) rest)

instance {T : Type} (u : Option String) (l : List (OrderedPage T)) :
    Decidable (NextChain u l) := nextChainDec u l

def prevChainDec {T : Type} :
    (l : List (OrderedPage T)) → Decidable (PrevChain l)
  | [] => .isTrue trivial
  | [_] => by unfold PrevChain; infer_instance
  | _ :: q :: rest =>
    @instDecidableAnd _ _ (by infer_instance) (prevChainDec (q :: rest))

instance {T : Type} (l : List (OrderedPage T)) : Decidable (PrevChain l) :=
  prevChainDec l

/-! ## Posts, indices and pagination -/

structure TagLink where
  text : String
  url : String
  deriving DecidableEq

/-- The `Post` record: YAML frontmatter (title, author, date, tags) inlined,
plus source-relative path, converted body and snippet.  The `Date` (a Go
`time.Time`) appears in ordering only through `UnixNano()`, so it is carried
as that `Int`. -/
structure Post where
  title : String
  author : String
  dateNanos : Int
  tags : List TagLink
  path : String
  body : String
  snippet : String
  deriving DecidableEq

structure IndexPage where
  indexId : String
  number : Nat
  posts : List (OrderedPage Post)
  deriving DecidableEq

structure Index where
  id : String
  posts : List (OrderedPage Post)
  deriving DecidableEq

/-- The two-component case of `filepath.Join`.  `filepath.Join` also runs
`Clean` on the result; every component fed to it here (`""`, a lowercased tag
text or `"posts"`, and `index.html` / `page-NNN.html`) is already clean, so
joining reduces to inserting a single separator. -/
def pathJoin (a b : String) : String :=
  if a = "" then b else if b = "" then a else a ++ "/" ++ b

/-- The suffix of `l` from just past the final `'/'` removed; helper for
`resolveURL`. -/
def dirPart (l : List Char) : List Char :=
  (l.reverse.dropWhile (fun c => c ≠ '/')).reverse

/-- Resolution `base.ResolveReference(rel)` for the only shapes that occur in the page
converters: an absolute base URL and a bare relative path reference (no
scheme, no host, no leading slash, as produced for `index.html`,
`page-NNN.html` and `posts/....html`).  Per RFC 3986 merging, the reference
replaces everything after the final `/` of the base's path. -/
def resolveURL (base rel : String) : String :=
  String.mk (dirPart base.data ++ rel.data)

/-- The record `PageConverter[T]`: base URL (as a string) and directory prefix. -/
structure PageConverter where
  baseURL : String
  directory : String
  deriving DecidableEq

/-- Hexadecimal digit test of `net/url`'s `ishex`. -/
def isHexDigitChar (c : Char) : Bool :=
  (48 ≤ c.toNat && c.toNat ≤ 57)
    || (97 ≤ c.toNat && c.toNat ≤ 102)
    || (65 ≤ c.toNat && c.toNat ≤ 70)

/-- Percent-escape validity as checked by `net/url` unescaping: every `%`
must be followed by two hexadecimal digits. -/
def percentEscOk : List Char → Bool
  | [] => true
  | '%' :: a :: b :: rest => isHexDigitChar a && isHexDigitChar b && percentEscOk rest
  | '%' :: _ => false
  | _ :: rest => percentEscOk rest

/-- Success predicate of `url.Parse` on the relative path strings the page
converters feed it (no scheme, no host, no query or fragment separators in
the pipeline's ids and file names): parsing fails exactly when the string
contains an ASCII control character (`0x00`-`0x1f` or `0x7f`, Go's
`strings.ContainsCTLByte` check) or an invalid percent-escape.  A tag index
id is raw lowercased frontmatter text, so both failure modes are reachable
(e.g. the tag `100%`). -/
def parseRelPathOk (s : String) : Bool :=
  s.data.all (fun c => !(c.toNat < 32 || c.toNat == 127)) && percentEscOk s.data

/-- Conversion `PageConverter.Convert`: joins the directory prefix onto `path`, parses
the result as a relative URL reference and resolves it against the base URL.
`url.Parse` can fail (invalid percent-escape or control character in a tag
id); Go then returns the error and the partially-filled page is discarded by
the caller, modelled as `none`. -/
def pageConvert {T : Type} (conv : PageConverter) (path : String) (order : Int)
    (content : T) : Option (PageData T) :=
  if parseRelPathOk (pathJoin conv.directory path) then
    some { content := content, order := order
           path := pathJoin conv.directory path
           url := resolveURL conv.baseURL (pathJoin conv.directory path) }
  else none

/-- The format `fmt.Sprintf("%03d", n)`: decimal rendering of `n`, left-padded with
zeros to a minimum width of three digits. -/
def padZeroThree (n : Nat) : String :=
  let s := toString n
  if s.length < 3 then String.mk (List.replicate (3 - s.length) '0') ++ s else s

/-- File name chosen by `IndexPageConverter.Convert`: `index.html` for page
number `0`, `page-NNN.html` otherwise. -/
def indexFileName (pageNumber : Nat) : String :=
  if pageNumber = 0 then "index.html"
  else "page-" ++ padZeroThree pageNumber ++ ".html"

/-- Conversion `IndexPageConverter.Convert`: builds the `IndexPage` holding
`idx.Posts[postsStart:postsEnd]` and converts it to a `Page[IndexPage]` at
path `filepath.Join(idx.ID, fileName)` with order key `int64(pageNumber)`;
propagates `Convert`'s error (`none`). -/
def indexPageConvert (conv : PageConverter) (idx : Index) (pageNumber : Nat)
    (postsStart postsEnd : Nat) : Option (PageData IndexPage) :=
  pageConvert conv (pathJoin idx.id (indexFileName pageNumber))
    (Int.ofNat pageNumber)
    { indexId := idx.id
      number := pageNumber
      posts := (idx.posts.drop postsStart).take (postsEnd - postsStart) }

/-- The full-page loop of `Index.Paginate` over a list of page numbers: each
iteration appends a zero-valued `OrderedPage[IndexPage]` (nil links) and
fills its `Page` from the converter, returning the converter's error — and
discarding the pages built so far — as soon as one conversion fails. -/
def convertPages (size : Nat) (conv : PageConverter) (idxS : Index) :
    List Nat → Option (List (OrderedPage IndexPage))
  | [] => some []
  | i :: rest =>
    match indexPageConvert conv idxS i (i * size) ((i + 1) * size) with
    | none => none
    | some pg =>
      (convertPages size conv idxS rest).map
        (fun ps => ({ page := pg } : OrderedPage IndexPage) :: ps)

/-- The pages built by `Index.Paginate` before cross-linking: one full page
per complete group of `size` posts (`i` ranging over `len(posts)/size`),
plus one final partial page when `len(posts)%size > 0`; `none` when any
conversion fails (Go returns that error and the Indexer emits nothing).
`idxSorted` is the index with its posts already sorted (the Go code sorts
`idx.Posts` in place before this loop, so the slices handed to the converter
come from the sorted list). -/
def rawIndexPages (size : Nat) (conv : PageConverter) (idxSorted : Index) :
    Option (List (OrderedPage IndexPage)) :=
  if idxSorted.posts.length % size > 0 then
    match convertPages size conv idxSorted
        (List.range (idxSorted.posts.length / size)) with
    | none => none
    | some fullPages =>
      match indexPageConvert conv idxSorted (idxSorted.posts.length / size)
          ((idxSorted.posts.length / size) * size) idxSorted.posts.length with
      | none => none
      | some pg => some (fullPages ++ [{ page := pg }])
  else
    convertPages size conv idxSorted
      (List.range (idxSorted.posts.length / size))

/-- The method `Index.Paginate`: sorts the index's posts by descending order
key, builds the pages and — only on success, since the Go code returns
before reaching `OrderPages` when a conversion fails — cross-links them with
`OrderPages`. -/
def paginate (size : Nat) (conv : PageConverter) (idx : Index) :
    Option (List (OrderedPage IndexPage)) :=
  (rawIndexPages size conv
    { id := idx.id, posts := sortByOrderDesc idx.posts }).map orderPages

/-! ## Feed building

From `buildFeed` / `buildFeedPage` / `buildFeedItem`.  The JSON document that
`json.Marshal` produces is modelled structurally: `FeedDoc` carries the
header fields, the per-page link override, the items, and the non-standard
`next_url` top-level field, which Go tags with `omitempty` so that it is
omitted exactly when the `Next` string is empty. -/

structure FeedHeader where
  title : String
  description : String
  authorName : String
  createdNanos : Int
  deriving DecidableEq

structure FeedItem where
  authorName : String
  createdNanos : Int
  link : String
  description : String
  deriving DecidableEq

structure FeedDoc where
  title : String
  description : String
  authorName : String
  createdNanos : Int
  link : String
  items : List FeedItem
  nextUrl : Option String
  deriving DecidableEq

/-- Path chopping `page.Path[:len(page.Path)-len(".html")]`, the Go byte-slice expression
that drops the five-byte `.html` suffix (every index page path ends in
`.html` by construction, so the slice bounds are always in range). -/
def chopHtmlSuffix (s : String) : String :=
  String.mk (s.data.take (s.data.length - 5))

/-- Item construction `buildFeedItem`: author name, creation date, link and description drawn
from the post's page. -/
def buildFeedItem (p : PageData Post) : FeedItem :=
  { authorName := p.content.author
    createdNanos := p.content.dateNanos
    link := p.url
    description := p.content.snippet }

/-- Feed assembly `buildFeedPage`: copies the header, overrides `Link` with the index
page's URL and fills one item per post on the page, in page order. -/
def buildFeedPage (header : FeedHeader) (page : PageData IndexPage)
    (nextUrl : Option String) : FeedDoc :=
  { title := header.title
    description := header.description
    authorName := header.authorName
    createdNanos := header.createdNanos
    link := page.url
    items := page.content.posts.map fun op => buildFeedItem op.page
    nextUrl := nextUrl }

/-- Feed emission `buildFeed`: skips tag index pages (non-empty index id) without writing;
for the global index, computes the `.json` output path and serialises the
feed with `next_url` set from `page.Next` (empty string, hence omitted, when
the link is absent).  The single written file is modelled as
`some (path, document)`; the skip case as `none`.  (I/O errors on the output
filesystem abort the actor and are outside this model.) -/
def buildFeed (header : FeedHeader) (page : OrderedPage IndexPage) :
    Option (String × FeedDoc) :=
  if page.page.content.indexId ≠ "" then none
  else
    let path := chopHtmlSuffix page.page.path ++ ".json"
    let next : String := match page.next with | some u => u | none => ""
    some (path,
      buildFeedPage header page.page (if next = "" then none else some next))

/-! ## Markdown link rewriting (package `markdown`)

The pre-render walk's link case, from `visitor.Visit` and `patchURL`:

```go
if len(link.Destination) > 0 {
    dst, err := url.Parse(string(link.Destination))
    if err != nil {
        slog.Warn("DocumentVisitor: invalid link url", ...)
        return ast.SkipChildren
    }
    resolved := patchURL(visitor.BaseURL, visitor.url, dst).String()
    link.Destination = []byte(resolved)
    return ast.SkipChildren
}
return ast.GoToNext

func patchURL(base, current, u *url.URL) *url.URL {
    if u.Host == "" && u.Scheme == "" && len(u.Path) > 0 && u.Path[0] == '/' {
        return base.JoinPath(u.Path[1:])
    }
    return current.ResolveReference(u)
}
```

`net/url` is Go standard library, modelled here at the granularity the walk
uses: a URL is a scheme, a host and a path (query and fragment are not
inspected by `patchURL` and are folded into the path).  `parseURL` keeps the
library's observable failure mode — `url.Parse` rejects URLs containing
ASCII control characters — and splits `scheme://host/path` shapes;
`resolveReference` implements RFC 3986 reference resolution for these
shapes (without dot-segment normalisation) and `joinPath` appends a path
element, as `URL.JoinPath` does. -/

structure GoURL where
  scheme : String
  host : String
  path : String
  deriving DecidableEq

def parseURL (s : String) : Option GoURL :=
  if s.data.any (fun c => c.toNat < 32) then none
  else
    match firstIndexOf "://".toList s.data with
    | some i =>
      let rest := s.data.drop (i + 3)
      let hostPart := rest.takeWhile (fun c => c ≠ '/')
      some { scheme := String.mk (s.data.take i)
             host := String.mk hostPart
             path := String.mk (rest.drop hostPart.length) }
    | none => some { scheme := "", host := "", path := s }

def mergeURLPaths (basePath refPath : String) : String :=
  String.mk (dirPart basePath.data ++ refPath.data)

def resolveReference (base u : GoURL) : GoURL :=
  if u.scheme ≠ "" then u
  else if u.host ≠ "" then { u with scheme := base.scheme }
  else if u.path = "" then base
  else if u.path.data.head? = some '/' then
    { scheme := base.scheme, host := base.host, path := u.path }
  else
    { scheme := base.scheme, host := base.host
      path := mergeURLPaths base.path u.path }

def joinURLPath (base : GoURL) (elem : String) : GoURL :=
  { base with
    path :=
      if base.path.data.getLast? = some '/' then base.path ++ elem
      else base.path ++ "/" ++ elem }

def urlString (u : GoURL) : String :=
  (if u.scheme = "" ∧ u.host = "" then "" else u.scheme ++ "://" ++ u.host) ++ u.path

def patchURL (base current u : GoURL) : GoURL :=
  if u.host = "" ∧ u.scheme = "" ∧ u.path.data.head? = some '/' then
    joinURLPath base (String.mk (u.path.data.drop 1))
  else resolveReference current u

inductive WalkStatus where
  | goToNext
  | skipChildren
  deriving DecidableEq

/-- The link case of `visitor.Visit`: the returned pair is the link node's
destination after the visit together with the walk status. -/
def visitLink (base current : GoURL) (dest : String) : String × WalkStatus :=
  if dest.data.length > 0 then
    match parseURL dest with
    | none => (dest, .skipChildren)
    | some u => (urlString (patchURL base current u), .skipChildren)
  else (dest, .goToNext)

/-! ## Actor result collection (package `actor`)

`Multi.Run` spawns one goroutine per actor, each sending its `Run` result on
a shared unbuffered channel, and then executes

```go
for range actors {
    if err := <-results; err != nil { return err }
}
return nil
```

(`Base.Run` with `Concurrency > 1` runs the identical receive loop over its
workers' results.)  The concurrent part is abstracted as the sequence in
which results arrive on the channel — an arbitrary permutation of the
actors' results, one `Option Err` per actor, `none` for a nil error.
`runnerLoop arrivals` returns how many results the loop receives before
returning together with the returned error (`none` = nil). -/

def runnerLoop {Err : Type} : List (Option Err) → Nat × Option Err
  | [] => (0, none)
  | some e :: _ => (1, some e)
  | none :: rest =>
    let r := runnerLoop rest
    (r.1 + 1, r.2)

/-- The first non-nil error in arrival order. -/
def firstErr {Err : Type} : List (Option Err) → Option Err
  | [] => none
  | some e :: _ => some e
  | none :: rest => firstErr rest

def linkBase : GoURL := { scheme := "https", host := "example.org", path := "/" }

def linkCurrent : GoURL :=
  { scheme := "https", host := "example.org", path := "/posts/a.html" }

def feedHeaderW : FeedHeader :=
  { title := "blog", description := "d", authorName := "a", createdNanos := 0 }

def feedPageW : OrderedPage IndexPage :=
  { page :=
      { content := { indexId := "", number := 0, posts := [] }
        order := 0
        path := "index.html"
        url := "https://example.org/index.html" }
    next := some "https://example.org/page-001.html" }

/-- Descending comparison produced by the `b.Compare(&a.Page)` comparator:
`a` sorts no later than `b` when `b`'s order key is at most `a`'s. -/
def OrderDescLe {T : Type} (a b : OrderedPage T) : Prop :=
  b.page.order ≤ a.page.order

def OrderDescLt {T : Type} (a b : OrderedPage T) : Prop :=
  b.page.order < a.page.order

instance {T : Type} : DecidableRel (OrderDescLe (T := T)) := fun a b =>
  inferInstanceAs (Decidable (b.page.order ≤ a.page.order))

instance {T : Type} : DecidableRel (OrderDescLt (T := T)) := fun a b =>
  inferInstanceAs (Decidable (b.page.order < a.page.order))

def linkCexPages : List (OrderedPage Unit) :=
  [{ page := { content := (), order := 5, path := "a", url := "ua" } },
   { page := { content := (), order := 5, path := "b", url := "ub" }
     next := some "stale" }]

def linkWitnessPages : List (OrderedPage Unit) :=
  [{ page := { content := (), order := 3, path := "a", url := "ua" } },
   { page := { content := (), order := 7, path := "b", url := "ub" } }]

def c3Conv : PageConverter := { baseURL := "https://example.org/", directory := "" }

def c3Post (k : Nat) : OrderedPage Post :=
  { page :=
      { content :=
          { title := "t" ++ toString k, author := "A", dateNanos := (k : Int)
            tags := [], path := "p.md", body := "b", snippet := "" }
        order := (k : Int)
        path := "posts/p" ++ toString k ++ ".html"
        url := "https://example.org/posts/p" ++ toString k ++ ".html" } }

def c3Index : Index := { id := "golang", posts := [c3Post 1, c3Post 2, c3Post 3] }

def c3Pages : List (OrderedPage IndexPage) :=
  (paginate 2 c3Conv c3Index).getD []

/-- An index whose id is a tag carrying an invalid percent-escape: URL
parsing of its output paths fails, so `Index.Paginate` returns an error and
the Indexer emits no pages for it. -/
def c3CexIdx : Index := { id := "100%", posts := [c3Post 1] }

def c1DateNanos (k : Nat) : Int := (18262 + (k : Int)) * 86400000000000

def c1Conv : PageConverter := { baseURL := "https://example.org/", directory := "" }

def c1Post (k : Nat) : OrderedPage Post :=
  { page :=
      { content :=
          { title := "post" ++ toString (k + 1), author := "A"
            dateNanos := c1DateNanos k, tags := []
            path := "p" ++ toString (k + 1) ++ ".md", body := "b", snippet := "s" }
        order := c1DateNanos k
        path := "posts/p" ++ toString (k + 1) ++ ".html"
        url := "https://example.org/posts/p" ++ toString (k + 1) ++ ".html" } }

def c1Index : Index := { id := "", posts := (List.range 11).map c1Post }

/-- The pages the Indexer emits for the global index in the eleven-post
scenario (`paginate` succeeds there; the amended C1 theorem proves the
`some`). -/
def c1Pages : List (OrderedPage IndexPage) :=
  (paginate 10 c1Conv c1Index).getD []

def c1Header : FeedHeader :=
  { title := "blog", description := "d", authorName := "A", createdNanos := 0 }

/-! ## Lemmas about substring search -/

theorem isPrefixList_length {p l : List Char} (h : isPrefixList p l = true) :
    p.length ≤ l.length := by
  induction p generalizing l with
  | nil => simp
  | cons a as ih =>
    cases l with
    | nil => simp [isPrefixList] at h
    | cons b bs =>
      simp only [isPrefixList, Bool.and_eq_true, beq_iff_eq] at h
      simpa using ih h.2

/-- An occurrence reported by `firstIndexOf` lies wholly inside the buffer. -/
theorem firstIndexOf_bound {pat l : List Char} {i : Nat}
    (h : firstIndexOf pat l = some i) : i + pat.length ≤ l.length := by
  induction l generalizing i with
  | nil =>
    simp only [firstIndexOf] at h
    split at h
    · next hp =>
      cases h
      simpa using isPrefixList_length hp
    · cases h
  | cons c t ih =>
    simp only [firstIndexOf] at h
    split at h
    · next hp =>
      cases h
      simpa using isPrefixList_length hp
    · cases hft : firstIndexOf pat t with
      | none => rw [hft] at h; simp at h
      | some j =>
        rw [hft] at h
        simp only [Option.map_some', Option.some.injEq] at h
        have := ih hft
        simp only [List.length_cons]
        omega

/-! ## Snippet lemmas -/

theorem snippet_eq_snippetSpec (data : List Char) :
    snippet data = snippetSpec data := by
  cases h1 : firstIndexOf moreMarker data with
  | some i =>
    simp [snippet, snippetSpec, h1]
  | none =>
    cases h2 : firstIndexOf closingParagraph data with
    | none => simp [snippet, snippetSpec, h1, h2]
    | some j =>
      simp only [snippet, snippetSpec, h1, h2]
      have : (if 1024 < j then 1024 else j) = min j 1024 := by
        rcases Nat.lt_or_ge 1024 j with h | h
        · rw [if_pos h, min_eq_right (Nat.le_of_lt h)]
        · rw [if_neg (Nat.not_lt.mpr h), min_eq_left h]
      rw [this]

/-- The function `snippet` has no fixed point other than the empty body: a reported
occurrence index leaves room for the marker itself, so the cut is always a
strict prefix of a non-empty input. -/
theorem snippet_fixed_point (r : List Char) : snippet r = r ↔ r = [] := by
  constructor
  · intro h
    by_contra hne
    cases h1 : firstIndexOf moreMarker r with
    | some i =>
      have hb := firstIndexOf_bound h1
      have hmm : moreMarker.length = 13 := rfl
      rw [snippet_eq_snippetSpec] at h
      simp only [snippetSpec, h1] at h
      have hlen := congrArg List.length h
      simp only [List.length_take] at hlen
      omega
    | none =>
      cases h2 : firstIndexOf closingParagraph r with
      | some j =>
        have hb := firstIndexOf_bound h2
        have hcp : closingParagraph.length = 4 := rfl
        rw [snippet_eq_snippetSpec] at h
        simp only [snippetSpec, h1, h2] at h
        have hlen := congrArg List.length h
        simp only [List.length_take] at hlen
        omega
      | none =>
        apply hne
        rw [← h]
        simp [snippet, h1, h2]
  · rintro rfl
    rfl

/-! ## Claims C4-C7 -/

/-- C4: the claim that `ParsePost` fails with `FrontmatterMissingEndFence`
exactly when `\n---\n` does not occur after the start fence is right about
the intended behaviour, but the code searches for the end fence from offset
0: on the buffer `---\n---\n` the first occurrence starts at offset 3,
inside the four-byte start fence, and instead of reporting the missing end
fence the code panics slicing `data[4:3]`.  (The start-fence half of the
claim does hold: the buffer below does begin with `---\n`.) -/
theorem parsePost_missing_end_after_fence_panics :
    isPrefixList startFence ("---\n---\n".toList) = true
    ∧ firstIndexOf endFence ("---\n---\n".toList) = some 3
    ∧ parsePost ("---\n---\n".toList) = .panicSliceBounds := by decide

/-- C5: `ParsePost` is not total — on any buffer beginning with
`---\n---\n` the frontmatter slice `data[4:3]` is out of range and the Go
code panics instead of returning a post or an error. -/
theorem parsePost_not_total :
    parsePost ("---\n---\nhello".toList) = .panicSliceBounds := by decide

/-- C6: the snippet equals the body prefix strictly before the first
`<!-- more -->` when the marker is present; otherwise, when `</p>` is
present, the prefix of length `min(indexOf "</p>", 1024)`; otherwise the
empty string. -/
theorem snippet_claim (data : List Char) :
    (∀ i, firstIndexOf moreMarker data = some i → snippet data = data.take i)
    ∧ (firstIndexOf moreMarker data = none →
        ∀ j, firstIndexOf closingParagraph data = some j →
          snippet data = data.take (min j 1024))
    ∧ (firstIndexOf moreMarker data = none →
        firstIndexOf closingParagraph data = none → snippet data = []) := by
  refine ⟨?_, ?_, ?_⟩
  · intro i h
    simp [snippet, h]
  · intro h1 j h2
    rw [snippet_eq_snippetSpec]
    simp [snippetSpec, h1, h2]
  · intro h1 h2
    simp [snippet, h1, h2]

theorem snippet_claim_witness :
    (∀ i, firstIndexOf moreMarker "ab</p>cd".toList = some i →
      snippet "ab</p>cd".toList = "ab</p>cd".toList.take i)
    ∧ (firstIndexOf moreMarker "ab</p>cd".toList = none →
        ∀ j, firstIndexOf closingParagraph "ab</p>cd".toList = some j →
          snippet "ab</p>cd".toList = "ab</p>cd".toList.take (min j 1024))
    ∧ (firstIndexOf moreMarker "ab</p>cd".toList = none →
        firstIndexOf closingParagraph "ab</p>cd".toList = none →
          snippet "ab</p>cd".toList = []) :=
  snippet_claim "ab</p>cd".toList

/-- C7 counterexample: snippet extraction is not idempotent.  For the body
`a</p>` the snippet is `a` (cut strictly before the `</p>`), but the snippet
of `a` is empty, since `a` contains neither marker. -/
theorem snippet_not_idempotent :
    snippet (snippet "a</p>".toList) ≠ snippet "a</p>".toList := by decide

/-- C7 (amended): applying `snippet` twice gives the first result back
exactly when that first result is empty — the extractor cuts strictly
before `</p>` (or before the marker), so any non-empty extracted snippet is
cut again by the second application. -/
theorem snippet_idempotent_iff (x : List Char) :
    snippet (snippet x) = snippet x ↔ snippet x = [] :=
  snippet_fixed_point (snippet x)

theorem snippet_idempotent_iff_witness :
    (snippet (snippet "hi there".toList) = snippet "hi there".toList ↔
      snippet "hi there".toList = []) :=
  snippet_idempotent_iff "hi there".toList

/-! ## Claim C10 -/

/-- C10 counterexample: with two actors whose results arrive as an error
followed by a clean exit, the result-collection loop of `Multi.Run` (and of
`Base.Run` with `Concurrency > 1`) returns after receiving only the first
result — it does not wait for the remaining actor/worker before
returning. -/
theorem runnerLoop_returns_early :
    (runnerLoop [some "actor failed", (none : Option String)]).1 ≠ 2 := by
  decide

/-- C10 (amended): the runner returns the first non-nil error in
result-arrival order; it receives one result per actor (i.e. waits for all
of them) when every result is nil, but when an error arrives it returns
immediately after that error, having received only the results up to and
including the first non-nil one. -/
theorem runnerLoop_spec {Err : Type} (arrivals : List (Option Err)) :
    (runnerLoop arrivals).2 = firstErr arrivals
    ∧ (firstErr arrivals = none → (runnerLoop arrivals).1 = arrivals.length)
    ∧ (∀ e, firstErr arrivals = some e →
        (runnerLoop arrivals).1 = arrivals.findIdx (fun r => r.isSome) + 1) := by
  induction arrivals with
  | nil => simp [runnerLoop, firstErr]
  | cons a rest ih =>
    obtain ⟨ih1, ih2, ih3⟩ := ih
    cases a with
    | some e =>
      refine ⟨by simp [runnerLoop, firstErr], by simp [firstErr], ?_⟩
      intro e' h
      simp [runnerLoop, List.findIdx_cons]
    | none =>
      refine ⟨by simp [runnerLoop, firstErr, ih1], ?_, ?_⟩
      · intro h
        simp only [firstErr] at h
        simp [runnerLoop, ih2 h]
      · intro e h
        simp only [firstErr] at h
        simp [runnerLoop, List.findIdx_cons, ih3 e h]

theorem runnerLoop_spec_witness :
    ((runnerLoop [none, some "boom", none]).2 = firstErr [none, some "boom", none]
    ∧ (firstErr [none, some "boom", none] = none →
        (runnerLoop [none, some "boom", none]).1 = 3)
    ∧ (∀ e, firstErr [none, some "boom", none] = some e →
        (runnerLoop [none, some "boom", none]).1 =
          ([none, some "boom", none].findIdx (fun r => r.isSome)) + 1)) :=
  runnerLoop_spec [none, some "boom", none]

/-! ## Claim C9 -/

/-- C9: for every markdown link with a non-empty destination, the visitor
leaves an unparseable destination unchanged and skips the link's children;
a bare absolute path (empty scheme, empty host, path beginning with `/`)
is rewritten to the site base URL joined with the path stripped of its
leading slash; every other destination is rewritten to its resolution
against the current page's URL.  In all three cases the walk skips the
link's children. -/
theorem visitLink_claim (base current : GoURL) (dest : String)
    (hne : dest.data ≠ []) :
    (parseURL dest = none → visitLink base current dest = (dest, .skipChildren))
    ∧ (∀ u, parseURL dest = some u →
        ((u.scheme = "" ∧ u.host = "" ∧ u.path.data.head? = some '/') →
          visitLink base current dest =
            (urlString (joinURLPath base (String.mk (u.path.data.drop 1))),
              .skipChildren))
        ∧ (¬(u.scheme = "" ∧ u.host = "" ∧ u.path.data.head? = some '/') →
          visitLink base current dest =
            (urlString (resolveReference current u), .skipChildren))) := by
  have hlen : dest.data.length > 0 := List.length_pos.mpr hne
  refine ⟨?_, ?_⟩
  · intro h
    unfold visitLink
    rw [if_pos hlen, h]
  · intro u hu
    have hv : visitLink base current dest =
        (urlString (patchURL base current u), .skipChildren) := by
      unfold visitLink
      rw [if_pos hlen, hu]
    constructor
    · intro hcond
      obtain ⟨hs, hh, hp⟩ := hcond
      rw [hv]
      unfold patchURL
      rw [if_pos ⟨hh, hs, hp⟩]
    · intro hcond
      rw [hv]
      unfold patchURL
      rw [if_neg (fun h => hcond ⟨h.2.1, h.1, h.2.2⟩)]

theorem visitLink_claim_witness :
    (parseURL "/img/a.png" = none →
      visitLink linkBase linkCurrent "/img/a.png" = ("/img/a.png", .skipChildren))
    ∧ (∀ u, parseURL "/img/a.png" = some u →
        ((u.scheme = "" ∧ u.host = "" ∧ u.path.data.head? = some '/') →
          visitLink linkBase linkCurrent "/img/a.png" =
            (urlString (joinURLPath linkBase (String.mk (u.path.data.drop 1))),
              .skipChildren))
        ∧ (¬(u.scheme = "" ∧ u.host = "" ∧ u.path.data.head? = some '/') →
          visitLink linkBase linkCurrent "/img/a.png" =
            (urlString (resolveReference linkCurrent u), .skipChildren))) :=
  visitLink_claim linkBase linkCurrent "/img/a.png" (by decide)

/-! ## Claim C8 -/

/-- C8: the feed builder writes nothing for a tag index page (non-empty
index id) and reports no error; for a global index page (empty id) it writes
exactly one file, at the page's path with the trailing `.html` replaced by
`.json`, whose document carries `next_url` equal to the page's next link
when present and omits it (`none`) when absent.  The hypothesis `hnext`
records that index-page URLs, being the base URL resolved with a non-empty
file name, are never the empty string; `hpath` records that every index page
path ends in `.html` by construction. -/
theorem buildFeed_claim (header : FeedHeader) (page : OrderedPage IndexPage)
    (hnext : page.next ≠ some "")
    (hpath : ∃ stem, page.page.path = stem ++ ".html") :
    (page.page.content.indexId ≠ "" → buildFeed header page = none)
    ∧ (page.page.content.indexId = "" →
        ∃ stem doc, page.page.path = stem ++ ".html"
          ∧ buildFeed header page = some (stem ++ ".json", doc)
          ∧ doc.nextUrl = page.next) := by
  obtain ⟨stem, hstem⟩ := hpath
  constructor
  · intro h
    simp [buildFeed, h]
  · intro h
    have hchop : chopHtmlSuffix (stem ++ ".html") = stem := by
      unfold chopHtmlSuffix
      rw [String.data_append]
      have hlen : (stem.data ++ ".html".data).length - 5 = stem.data.length := by
        simp [List.length_append]
      rw [hlen, List.take_left]
    cases hn : page.next with
    | none =>
      refine ⟨stem, buildFeedPage header page.page none, hstem, ?_, ?_⟩
      · simp [buildFeed, h, hn, hstem, hchop]
      · simp [buildFeedPage, hn]
    | some u =>
      have hu : u ≠ "" := fun hu => hnext (by rw [hn, hu])
      refine ⟨stem, buildFeedPage header page.page (some u), hstem, ?_, ?_⟩
      · simp [buildFeed, h, hn, hstem, hchop, hu]
      · simp [buildFeedPage, hn]

theorem buildFeed_claim_witness :
    (feedPageW.page.content.indexId ≠ "" → buildFeed feedHeaderW feedPageW = none)
    ∧ (feedPageW.page.content.indexId = "" →
        ∃ stem doc, feedPageW.page.path = stem ++ ".html"
          ∧ buildFeed feedHeaderW feedPageW = some (stem ++ ".json", doc)
          ∧ doc.nextUrl = feedPageW.next) :=
  buildFeed_claim feedHeaderW feedPageW (by decide) ⟨"index", by decide⟩

/-! ## Sorting and cross-linking lemmas -/

theorem insertByOrderDesc_perm {T : Type} (p : OrderedPage T)
    (l : List (OrderedPage T)) : (insertByOrderDesc p l).Perm (p :: l) := by
  induction l with
  | nil => exact List.Perm.refl _
  | cons q rest ih =>
    by_cases hlt : q.page.order < p.page.order
    · rw [insertByOrderDesc, if_pos hlt]
    · rw [insertByOrderDesc, if_neg hlt]
      exact (ih.cons q).trans (List.Perm.swap p q rest)

theorem sortByOrderDesc_perm {T : Type} (l : List (OrderedPage T)) :
    (sortByOrderDesc l).Perm l := by
  induction l with
  | nil => exact List.Perm.refl _
  | cons p rest ih =>
    exact (insertByOrderDesc_perm p (sortByOrderDesc rest)).trans (ih.cons p)

theorem insertByOrderDesc_pairwise {T : Type} (p : OrderedPage T)
    {l : List (OrderedPage T)} (h : l.Pairwise OrderDescLe) :
    (insertByOrderDesc p l).Pairwise OrderDescLe := by
  induction l with
  | nil => simp [insertByOrderDesc, List.pairwise_cons]
  | cons q rest ih =>
    rw [List.pairwise_cons] at h
    obtain ⟨hq, hrest⟩ := h
    by_cases hlt : q.page.order < p.page.order
    · rw [insertByOrderDesc, if_pos hlt, List.pairwise_cons]
      refine ⟨?_, List.pairwise_cons.mpr ⟨hq, hrest⟩⟩
      intro x hx
      rcases List.mem_cons.mp hx with rfl | hx
      · exact Int.le_of_lt hlt
      · exact le_trans (hq x hx) (Int.le_of_lt hlt)
    · rw [insertByOrderDesc, if_neg hlt, List.pairwise_cons]
      refine ⟨?_, ih hrest⟩
      intro x hx
      have hx2 : x ∈ p :: rest := (insertByOrderDesc_perm p rest).mem_iff.mp hx
      rcases List.mem_cons.mp hx2 with rfl | hx3
      · exact Int.not_lt.mp hlt
      · exact hq x hx3

theorem sortByOrderDesc_pairwise {T : Type} (l : List (OrderedPage T)) :
    (sortByOrderDesc l).Pairwise OrderDescLe := by
  induction l with
  | nil => simp [sortByOrderDesc]
  | cons p rest ih => exact insertByOrderDesc_pairwise p ih

theorem setNextLinksFrom_map_page {T : Type} (u : String)
    (l : List (OrderedPage T)) :
    (setNextLinksFrom u l).map (fun x => x.page) = l.map (fun x => x.page) := by
  induction l generalizing u with
  | nil => rfl
  | cons q rest ih => simp [setNextLinksFrom, ih]

theorem setNextLinks_map_page {T : Type} (l : List (OrderedPage T)) :
    (setNextLinks l).map (fun x => x.page) = l.map (fun x => x.page) := by
  cases l with
  | nil => rfl
  | cons p rest => simp [setNextLinks, setNextLinksFrom_map_page]

theorem setPrevLinks_map_page {T : Type} (l : List (OrderedPage T)) :
    (setPrevLinks l).map (fun x => x.page) = l.map (fun x => x.page) := by
  induction l with
  | nil => rfl
  | cons p rest ih =>
    cases rest with
    | nil => rfl
    | cons q t => simpa [setPrevLinks] using ih

/-- The head cell written by `setPrevLinks` differs from the input head only
in its `prev` field. -/
theorem setPrevLinks_cons {T : Type} (p : OrderedPage T)
    (rest : List (OrderedPage T)) :
    ∃ p' X, setPrevLinks (p :: rest) = p' :: X
      ∧ p'.page = p.page ∧ p'.next = p.next := by
  cases rest with
  | nil => exact ⟨p, [], rfl, rfl, rfl⟩
  | cons q t => exact ⟨{ p with prev := some q.page.url }, _, rfl, rfl, rfl⟩

theorem nextChain_setNextLinksFrom {T : Type} (u : String)
    (l : List (OrderedPage T)) : NextChain (some u) (setNextLinksFrom u l) := by
  induction l generalizing u with
  | nil => trivial
  | cons q rest ih => exact ⟨rfl, ih q.page.url⟩

theorem prevChain_cons_of {T : Type} (x y : OrderedPage T)
    (h : x.prev = y.prev) (l : List (OrderedPage T))
    (hp : PrevChain (y :: l)) : PrevChain (x :: l) := by
  cases l <;> simp [PrevChain, h] at hp ⊢ <;> exact hp

theorem prevChain_setNextLinksFrom {T : Type} (u : String) (a : OrderedPage T)
    (l : List (OrderedPage T)) (h : PrevChain (a :: l)) :
    PrevChain (a :: setNextLinksFrom u l) := by
  induction l generalizing a u with
  | nil => exact h
  | cons b t ih =>
    obtain ⟨h1, h2⟩ := h
    exact ⟨h1, prevChain_cons_of { b with next := some u } b rfl _
      (ih b.page.url b h2)⟩

theorem prevChain_setNextLinks {T : Type} (l : List (OrderedPage T))
    (h : PrevChain l) : PrevChain (setNextLinks l) := by
  cases l with
  | nil => trivial
  | cons a rest => exact prevChain_setNextLinksFrom a.page.url a rest h

theorem prevChain_setPrevLinks {T : Type} (l : List (OrderedPage T))
    (h : ∀ x ∈ l, x.prev = none) : PrevChain (setPrevLinks l) := by
  induction l with
  | nil => trivial
  | cons p rest ih =>
    cases rest with
    | nil => exact h p (List.mem_singleton.mpr rfl)
    | cons q t =>
      have hrec : PrevChain (setPrevLinks (q :: t)) :=
        ih fun x hx => h x (List.mem_cons_of_mem p hx)
      obtain ⟨q', X, hqx, hpage, _⟩ := setPrevLinks_cons q t
      rw [hqx] at hrec
      show PrevChain ({ p with prev := some q.page.url } :: setPrevLinks (q :: t))
      rw [hqx]
      exact ⟨by rw [hpage], hrec⟩

/-! ## Claim C2 -/

/-- C2 counterexample: on two pages sharing the order key `5` (the second
also carrying a stale next link, which survives at the head), the output of
`OrderPages` is not strictly descending, and the head's next link is not
absent — the claim as stated fails. -/
theorem orderPages_cex :
    ¬ ((orderPages linkCexPages).Pairwise OrderDescLt
      ∧ NextChain none (orderPages linkCexPages)
      ∧ PrevChain (orderPages linkCexPages)) := by decide

/-- C2 (amended): for every non-empty list of pages whose links are absent
on input (as at both call sites, the Orderer and the Indexer), `OrderPages`
produces a list sorted by non-increasing order key — strictly descending
whenever the order keys are pairwise distinct — in which the page at
position `i` has next link equal to the URL of the page at position `i-1`
(absent at the head) and prev link equal to the URL of the page at position
`i+1` (absent at the tail). -/
theorem orderPages_claim {T : Type} (l : List (OrderedPage T)) (hne : l ≠ [])
    (hclean : ∀ x ∈ l, x.next = none ∧ x.prev = none) :
    (orderPages l).Pairwise OrderDescLe
    ∧ ((l.map (fun x => x.page.order)).Nodup →
        (orderPages l).Pairwise OrderDescLt)
    ∧ NextChain none (orderPages l) ∧ PrevChain (orderPages l) := by
  have hlen : ¬l.length < 1 := by
    cases l with
    | nil => exact absurd rfl hne
    | cons a t => simp
  rw [orderPages, if_neg hlen]
  have hperm : (sortByOrderDesc l).Perm l := sortByOrderDesc_perm l
  have hpair := sortByOrderDesc_pairwise l
  have hmp : (setNextLinks (setPrevLinks (sortByOrderDesc l))).map (fun x => x.page)
      = (sortByOrderDesc l).map (fun x => x.page) := by
    rw [setNextLinks_map_page, setPrevLinks_map_page]
  have hfinalLe :
      (setNextLinks (setPrevLinks (sortByOrderDesc l))).Pairwise OrderDescLe := by
    have h1 : ((sortByOrderDesc l).map (fun x => x.page)).Pairwise
        (fun a b => b.order ≤ a.order) := List.pairwise_map.mpr hpair
    rw [← hmp] at h1
    exact (List.pairwise_map (f := fun x : OrderedPage T => x.page)).mp h1
  have h3 : ∀ (m : List (OrderedPage T)), m.map (fun x => x.page.order)
      = (m.map (fun x => x.page)).map (fun pd => pd.order) := by
    intro m
    rw [List.map_map]
    rfl
  refine ⟨hfinalLe, ?_, ?_, ?_⟩
  · intro hnd
    have hpermo : ((setNextLinks (setPrevLinks (sortByOrderDesc l))).map
        (fun x => x.page.order)).Perm (l.map (fun x => x.page.order)) := by
      rw [h3 (setNextLinks (setPrevLinks (sortByOrderDesc l))), hmp,
        ← h3 (sortByOrderDesc l)]
      exact hperm.map _
    have hndf : (setNextLinks (setPrevLinks (sortByOrderDesc l))).map
        (fun x => x.page.order) |>.Nodup := hpermo.nodup_iff.mpr hnd
    have hne2 : (setNextLinks (setPrevLinks (sortByOrderDesc l))).Pairwise
        (fun a b => a.page.order ≠ b.page.order) :=
      (List.pairwise_map (f := fun x : OrderedPage T => x.page.order)).mp hndf
    refine (hfinalLe.and hne2).imp ?_
    intro a b hab
    exact lt_of_le_of_ne hab.1 fun hh => hab.2 hh.symm
  · cases hs' : sortByOrderDesc l with
    | nil =>
      exfalso
      apply hne
      have := hperm.length_eq
      rw [hs'] at this
      exact List.eq_nil_of_length_eq_zero this.symm
    | cons a srest =>
      obtain ⟨a', X', heq, _, hnextEq⟩ := setPrevLinks_cons a srest
      rw [heq]
      refine ⟨?_, nextChain_setNextLinksFrom a'.page.url X'⟩
      have ha : a ∈ l := hperm.mem_iff.mp (hs' ▸ List.mem_cons_self a srest)
      rw [hnextEq]
      exact (hclean a ha).1
  · exact prevChain_setNextLinks _ (prevChain_setPrevLinks _ fun x hx =>
      (hclean x (hperm.mem_iff.mp hx)).2)

theorem orderPages_claim_witness :
    ((orderPages linkWitnessPages).Pairwise OrderDescLe
    ∧ ((linkWitnessPages.map (fun x => x.page.order)).Nodup →
        (orderPages linkWitnessPages).Pairwise OrderDescLt)
    ∧ NextChain none (orderPages linkWitnessPages)
    ∧ PrevChain (orderPages linkWitnessPages)) :=
  orderPages_claim linkWitnessPages (by decide) (by decide)

/-! ## Pagination lemmas -/

theorem orderPages_map_page_perm {T : Type} (l : List (OrderedPage T)) :
    ((orderPages l).map (fun x => x.page)).Perm (l.map (fun x => x.page)) := by
  unfold orderPages
  split
  · exact List.Perm.refl _
  · rw [setNextLinks_map_page, setPrevLinks_map_page]
    exact (sortByOrderDesc_perm l).map _

theorem orderPages_length {T : Type} (l : List (OrderedPage T)) :
    (orderPages l).length = l.length := by
  have h := (orderPages_map_page_perm l).length_eq
  simpa using h

theorem pathJoin_empty_left (b : String) : pathJoin "" b = b := by
  simp [pathJoin]

theorem pathJoin_eq_if (a b : String) (hb : b ≠ "") :
    pathJoin a b = if a = "" then b else a ++ "/" ++ b := by
  by_cases h : a = "" <;> simp [pathJoin, h, hb]

theorem indexFileName_ne_empty (k : Nat) : indexFileName k ≠ "" := by
  unfold indexFileName
  split
  · decide
  · intro hc
    have h5 : ("page-" : String).length = 5 := rfl
    have h6 : (".html" : String).length = 5 := rfl
    have h0 : ("" : String).length = 0 := rfl
    have := congrArg String.length hc
    rw [String.length_append, String.length_append, h6, h0] at this
    rw [h5] at this
    omega

theorem ceil_div_count (n s : Nat) (hs : 0 < s) :
    n / s + (if n % s = 0 then 0 else 1) = (n + s - 1) / s := by
  by_cases hr : n % s = 0
  · rw [if_pos hr]
    have hd := Nat.div_add_mod n s
    have h1 : n + s - 1 = s * (n / s) + (s - 1) := by omega
    rw [h1, Nat.mul_add_div hs, Nat.div_eq_of_lt (show s - 1 < s by omega)]
  · rw [if_neg hr]
    have hd := Nat.div_add_mod n s
    have hm : n % s < s := Nat.mod_lt n hs
    have h2 : s * (n / s + 1) = s * (n / s) + s := by ring
    have h1 : n + s - 1 = s * (n / s + 1) + (n % s - 1) := by omega
    rw [h1, Nat.mul_add_div hs,
      Nat.div_eq_of_lt (show n % s - 1 < s by omega)]

/-- Characterisation of a successful `IndexPageConverter.Convert`: the
produced page carries the slice `[postsStart, postsEnd)` of the index's
posts, order key and number `k`, and the joined output path. -/
theorem indexPageConvert_eq_some {conv : PageConverter} {idxS : Index}
    {k a b : Nat} {pg : PageData IndexPage}
    (h : indexPageConvert conv idxS k a b = some pg) :
    pg = { content := { indexId := idxS.id, number := k
                        posts := (idxS.posts.drop a).take (b - a) }
           order := Int.ofNat k
           path := pathJoin conv.directory (pathJoin idxS.id (indexFileName k))
           url := resolveURL conv.baseURL
             (pathJoin conv.directory (pathJoin idxS.id (indexFileName k))) } := by
  unfold indexPageConvert pageConvert at h
  split at h
  · exact (Option.some.inj h).symm
  · exact absurd h (by simp)

theorem convertPages_length {size : Nat} {conv : PageConverter} {idxS : Index}
    {is : List Nat} {r : List (OrderedPage IndexPage)}
    (h : convertPages size conv idxS is = some r) : r.length = is.length := by
  induction is generalizing r with
  | nil =>
    simp only [convertPages, Option.some.injEq] at h
    rw [← h]
    rfl
  | cons i rest ih =>
    cases hc : indexPageConvert conv idxS i (i * size) ((i + 1) * size) with
    | none => simp [convertPages, hc] at h
    | some pg =>
      cases hr : convertPages size conv idxS rest with
      | none => simp [convertPages, hc, hr] at h
      | some ps =>
        simp only [convertPages, hc, hr, Option.map_some',
          Option.some.injEq] at h
        rw [← h]
        simp [ih hr]

theorem mem_convertPages {size : Nat} {conv : PageConverter} {idxS : Index}
    {is : List Nat} {r : List (OrderedPage IndexPage)}
    {x : OrderedPage IndexPage}
    (h : convertPages size conv idxS is = some r) (hx : x ∈ r) :
    ∃ i ∈ is, ∃ pg,
      indexPageConvert conv idxS i (i * size) ((i + 1) * size) = some pg
        ∧ x = { page := pg } := by
  induction is generalizing r with
  | nil =>
    simp only [convertPages, Option.some.injEq] at h
    rw [← h] at hx
    simp at hx
  | cons i rest ih =>
    cases hc : indexPageConvert conv idxS i (i * size) ((i + 1) * size) with
    | none => simp [convertPages, hc] at h
    | some pg =>
      cases hr : convertPages size conv idxS rest with
      | none => simp [convertPages, hc, hr] at h
      | some ps =>
        simp only [convertPages, hc, hr, Option.map_some',
          Option.some.injEq] at h
        rw [← h] at hx
        rcases List.mem_cons.mp hx with rfl | hx2
        · exact ⟨i, by simp, pg, hc, rfl⟩
        · obtain ⟨j, hj, pg2, hc2, hx3⟩ := ih hr hx2
          exact ⟨j, by simp [hj], pg2, hc2, hx3⟩

theorem convertPages_map_number {size : Nat} {conv : PageConverter}
    {idxS : Index} {is : List Nat} {r : List (OrderedPage IndexPage)}
    (h : convertPages size conv idxS is = some r) :
    r.map (fun p => p.page.content.number) = is := by
  induction is generalizing r with
  | nil =>
    simp only [convertPages, Option.some.injEq] at h
    rw [← h]
    rfl
  | cons i rest ih =>
    cases hc : indexPageConvert conv idxS i (i * size) ((i + 1) * size) with
    | none => simp [convertPages, hc] at h
    | some pg =>
      cases hr : convertPages size conv idxS rest with
      | none => simp [convertPages, hc, hr] at h
      | some ps =>
        simp only [convertPages, hc, hr, Option.map_some',
          Option.some.injEq] at h
        rw [← h]
        simp only [List.map_cons]
        rw [ih hr, indexPageConvert_eq_some hc]

theorem rawIndexPages_eq_some_length {size : Nat} {conv : PageConverter}
    {idxS : Index} {raw : List (OrderedPage IndexPage)}
    (h : rawIndexPages size conv idxS = some raw) :
    raw.length = idxS.posts.length / size
      + (if idxS.posts.length % size = 0 then 0 else 1) := by
  unfold rawIndexPages at h
  by_cases hmod : idxS.posts.length % size > 0
  · have h0 : ¬idxS.posts.length % size = 0 := by omega
    rw [if_pos hmod] at h
    cases hfull : convertPages size conv idxS
        (List.range (idxS.posts.length / size)) with
    | none => simp [hfull] at h
    | some fullPages =>
      cases hrem : indexPageConvert conv idxS (idxS.posts.length / size)
          ((idxS.posts.length / size) * size) idxS.posts.length with
      | none => simp [hfull, hrem] at h
      | some pg =>
        simp only [hfull, hrem, Option.some.injEq] at h
        rw [← h]
        have hlen := convertPages_length hfull
        simp [hlen, h0]
  · have h0 : idxS.posts.length % size = 0 := by omega
    rw [if_neg hmod] at h
    have hlen := convertPages_length h
    simp [hlen, h0]

theorem rawIndexPages_eq_some_map_number {size : Nat} {conv : PageConverter}
    {idxS : Index} {raw : List (OrderedPage IndexPage)}
    (h : rawIndexPages size conv idxS = some raw) :
    raw.map (fun p => p.page.content.number) = List.range raw.length := by
  have hlenraw := rawIndexPages_eq_some_length h
  unfold rawIndexPages at h
  by_cases hmod : idxS.posts.length % size > 0
  · have h0 : ¬idxS.posts.length % size = 0 := by omega
    rw [if_pos hmod] at h
    cases hfull : convertPages size conv idxS
        (List.range (idxS.posts.length / size)) with
    | none => simp [hfull] at h
    | some fullPages =>
      cases hrem : indexPageConvert conv idxS (idxS.posts.length / size)
          ((idxS.posts.length / size) * size) idxS.posts.length with
      | none => simp [hfull, hrem] at h
      | some pg =>
        simp only [hfull, hrem, Option.some.injEq] at h
        rw [if_neg h0] at hlenraw
        rw [hlenraw, ← h]
        have hr : List.range (idxS.posts.length / size + 1)
            = List.range (idxS.posts.length / size)
              ++ [idxS.posts.length / size] := by
          simpa using List.range_succ (n := idxS.posts.length / size)
        rw [hr, List.map_append, convertPages_map_number hfull]
        simp only [List.map_cons, List.map_nil]
        rw [indexPageConvert_eq_some hrem]
  · have h0 : idxS.posts.length % size = 0 := by omega
    rw [if_neg hmod] at h
    rw [if_pos h0] at hlenraw
    rw [hlenraw, convertPages_map_number h]
    rfl

/-- Every page built by a successful pagination is the conversion of the
slice `[k*size, min((k+1)*size, n))` of the sorted posts, where `k` is its
page number. -/
theorem mem_rawIndexPages {size : Nat} {conv : PageConverter} {idxS : Index}
    {raw : List (OrderedPage IndexPage)} (hs : 0 < size)
    (h : rawIndexPages size conv idxS = some raw)
    {x : OrderedPage IndexPage} (hx : x ∈ raw) :
    ∃ k pg, indexPageConvert conv idxS k (k * size)
        (min ((k + 1) * size) idxS.posts.length) = some pg
      ∧ x.page = pg := by
  unfold rawIndexPages at h
  by_cases hmod : idxS.posts.length % size > 0
  · rw [if_pos hmod] at h
    cases hfull : convertPages size conv idxS
        (List.range (idxS.posts.length / size)) with
    | none => simp [hfull] at h
    | some fullPages =>
      cases hrem : indexPageConvert conv idxS (idxS.posts.length / size)
          ((idxS.posts.length / size) * size) idxS.posts.length with
      | none => simp [hfull, hrem] at h
      | some pg =>
        simp only [hfull, hrem, Option.some.injEq] at h
        rw [← h] at hx
        rcases List.mem_append.mp hx with hx1 | hx2
        · obtain ⟨i, hi, pg2, hc2, hxeq⟩ := mem_convertPages hfull hx1
          refine ⟨i, pg2, ?_, by rw [hxeq]⟩
          have hle : (i + 1) * size ≤ idxS.posts.length := by
            have h1 : i + 1 ≤ idxS.posts.length / size := List.mem_range.mp hi
            have h2 : (i + 1) * size ≤ (idxS.posts.length / size) * size :=
              Nat.mul_le_mul_right size h1
            exact le_trans h2 (Nat.div_mul_le_self _ _)
          rw [min_eq_left hle]
          exact hc2
        · have hxeq : x = ({ page := pg } : OrderedPage IndexPage) := by
            simpa using hx2
          refine ⟨idxS.posts.length / size, pg, ?_, by rw [hxeq]⟩
          have hub : idxS.posts.length
              ≤ (idxS.posts.length / size + 1) * size := by
            have hd := Nat.div_add_mod idxS.posts.length size
            have hm : idxS.posts.length % size < size := Nat.mod_lt _ hs
            have h2 : (idxS.posts.length / size + 1) * size
                = size * (idxS.posts.length / size) + size := by ring
            omega
          rw [min_eq_right hub]
          exact hrem
  · rw [if_neg hmod] at h
    obtain ⟨i, hi, pg2, hc2, hxeq⟩ := mem_convertPages h hx
    refine ⟨i, pg2, ?_, by rw [hxeq]⟩
    have hle : (i + 1) * size ≤ idxS.posts.length := by
      have h1 : i + 1 ≤ idxS.posts.length / size := List.mem_range.mp hi
      have h2 : (i + 1) * size ≤ (idxS.posts.length / size) * size :=
        Nat.mul_le_mul_right size h1
      exact le_trans h2 (Nat.div_mul_le_self _ _)
    rw [min_eq_left hle]
    exact hc2

/-! ## Claim C3 -/

/-- C3 counterexample: a tag index whose id carries an invalid
percent-escape (the tag `100%`): `url.Parse` fails on its output path
`100%/index.html`, so `Index.Paginate` returns an error and the Indexer
emits no pages for it, while the claim demands `⌈1/10⌉ = 1` page. -/
theorem paginate_invalid_tag_cex :
    paginate 10 c3Conv c3CexIdx = none
    ∧ (c3CexIdx.posts.length + 10 - 1) / 10 = 1 := by decide

/-- C3 (amended): whenever `Paginate` succeeds — its page-path conversion
involves `url.Parse`, which fails for index ids containing an invalid
percent-escape or a control character, and Go then returns the error and
emits no pages — it produces, for an index of `n` posts and page size
`s > 0`, exactly `⌈n/s⌉` pages (zero when `n = 0`); page numbers are
exactly `0, …, ⌈n/s⌉-1` (as a multiset — `OrderPages` reorders the
emission); the page numbered `k` holds the posts at positions `k*s` up to
`min((k+1)*s, n)` of the descending-sorted post list, its order key is `k`,
its index id is the index's id; page 0 is named `index.html` and page
`k ≥ 1` is named `page-NNN.html` with `NNN` the zero-padded (minimum three
digit) page number, the path being the bare file name for the global index
(empty id) and `<id>/<file>` for a tag index.  The hypothesis `hdir` records
that the pipeline constructs the `IndexPageConverter` with an empty
directory prefix. -/
theorem paginate_claim (idx : Index) (size : Nat) (conv : PageConverter)
    (pages : List (OrderedPage IndexPage)) (hsize : 0 < size)
    (hdir : conv.directory = "")
    (hok : paginate size conv idx = some pages) :
    pages.length = (idx.posts.length + size - 1) / size
    ∧ (pages.map (fun p => p.page.content.number)).Perm
        (List.range pages.length)
    ∧ ∀ p ∈ pages,
        p.page.content.indexId = idx.id
        ∧ p.page.order = Int.ofNat p.page.content.number
        ∧ p.page.content.posts =
            ((sortByOrderDesc idx.posts).drop (p.page.content.number * size)).take
              (min ((p.page.content.number + 1) * size) idx.posts.length
                - p.page.content.number * size)
        ∧ p.page.path =
            (if idx.id = "" then indexFileName p.page.content.number
             else idx.id ++ "/" ++ indexFileName p.page.content.number) := by
  have hn : (sortByOrderDesc idx.posts).length = idx.posts.length :=
    (sortByOrderDesc_perm idx.posts).length_eq
  have h3 : ∀ (m : List (OrderedPage IndexPage)),
      m.map (fun x => x.page.content.number)
        = (m.map (fun x => x.page)).map (fun pd => pd.content.number) := by
    intro m
    rw [List.map_map]
    rfl
  unfold paginate at hok
  cases hraw : rawIndexPages size conv
      { id := idx.id, posts := sortByOrderDesc idx.posts } with
  | none =>
    rw [hraw] at hok
    simp at hok
  | some raw =>
    rw [hraw] at hok
    simp only [Option.map_some', Option.some.injEq] at hok
    subst hok
    refine ⟨?_, ?_, ?_⟩
    · rw [orderPages_length, rawIndexPages_eq_some_length hraw]
      dsimp only
      rw [hn]
      exact ceil_div_count idx.posts.length size hsize
    · rw [orderPages_length]
      have hmapped := (orderPages_map_page_perm raw).map
        (fun pd => pd.content.number)
      rw [← h3, ← h3] at hmapped
      rw [rawIndexPages_eq_some_map_number hraw] at hmapped
      exact hmapped
    · intro p hp
      have hpg : p.page ∈ raw.map (fun x => x.page) := by
        have h1 : p.page ∈ (orderPages raw).map (fun x => x.page) :=
          List.mem_map_of_mem _ hp
        exact (orderPages_map_page_perm raw).mem_iff.mp h1
      obtain ⟨x, hxraw, hxp⟩ := List.mem_map.mp hpg
      obtain ⟨k, pg, hc, hxpg⟩ := mem_rawIndexPages hsize hraw hxraw
      have hpk : p.page = pg := by rw [← hxp, hxpg]
      rw [indexPageConvert_eq_some hc] at hpk
      have hnum : p.page.content.number = k := by rw [hpk]
      refine ⟨?_, ?_, ?_, ?_⟩
      · rw [hpk]
      · rw [hnum, hpk]
      · rw [hnum, hpk]
        dsimp only
        rw [hn]
      · rw [hnum, hpk]
        dsimp only
        rw [hdir, pathJoin_empty_left,
          pathJoin_eq_if idx.id _ (indexFileName_ne_empty k)]

theorem paginate_claim_witness :
    0 < 2 ∧ c3Conv.directory = ""
    ∧ paginate 2 c3Conv c3Index = some c3Pages
    ∧ (c3Pages.length = (c3Index.posts.length + 2 - 1) / 2
      ∧ (c3Pages.map (fun p => p.page.content.number)).Perm
          (List.range c3Pages.length)
      ∧ ∀ p ∈ c3Pages,
          p.page.content.indexId = c3Index.id
          ∧ p.page.order = Int.ofNat p.page.content.number
          ∧ p.page.content.posts =
              ((sortByOrderDesc c3Index.posts).drop
                  (p.page.content.number * 2)).take
                (min ((p.page.content.number + 1) * 2) c3Index.posts.length
                  - p.page.content.number * 2)
          ∧ p.page.path =
              (if c3Index.id = "" then indexFileName p.page.content.number
               else c3Index.id ++ "/" ++ indexFileName p.page.content.number)) :=
  ⟨by decide, rfl, by decide,
    paginate_claim c3Index 2 c3Conv c3Pages (by decide) rfl (by decide)⟩

/-! ## Claim C1

The concrete pagination scenario: eleven posts dated 2020-01-01 through
2020-01-11 (order keys are the dates in nanoseconds since the epoch,
2020-01-01 being day 18262), page size 10, global index. -/

/-- C1 counterexample: in the eleven-post scenario the emitted global page
`index.html` has its next link present (pointing at `page-001.html`) and its
prev link absent — the claim asserts the exact opposite (`next` absent,
`prev = URL(page-001.html)`), because the Indexer sorts index pages by
descending page number, which places `index.html` at the tail of the ordered
list, where `OrderPages` fills `Next` rather than `Prev`. -/
theorem pagination_scenario_cex :
    ¬ (∀ p ∈ c1Pages, p.page.path = "index.html" →
        p.next = none ∧ p.prev = some "https://example.org/page-001.html") := by
  decide

/-- C1 (amended): eleven posts dated 2020-01-01..2020-01-11 with page size
10 produce exactly the pages `page-001.html` and `index.html`;
`index.html` (posts 11..2, newest first) has prev absent and next =
URL(page-001.html); `page-001.html` (post 1) has next absent and prev =
URL(index.html); the feed for `index.html` is written to `index.json` and
carries `next_url` = URL(page-001.html), as the claim states.  (`Paginate`
succeeds here: the global index id is empty, so its paths parse.) -/
theorem pagination_scenario_amended :
    paginate 10 c1Conv c1Index = some c1Pages
    ∧ (c1Pages.map fun p => p.page.path) = ["page-001.html", "index.html"]
    ∧ (∀ p ∈ c1Pages, p.page.path = "index.html" →
        p.next = some "https://example.org/page-001.html" ∧ p.prev = none
        ∧ p.page.content.posts.map (fun q => q.page.order)
            = (List.range 10).map (fun j => c1DateNanos (10 - j)))
    ∧ (∀ p ∈ c1Pages, p.page.path = "page-001.html" →
        p.next = none ∧ p.prev = some "https://example.org/index.html"
        ∧ p.page.content.posts.map (fun q => q.page.order) = [c1DateNanos 0])
    ∧ (∀ p ∈ c1Pages, p.page.path = "index.html" →
        (buildFeed c1Header p).map (fun x => (x.1, x.2.nextUrl))
          = some ("index.json", some "https://example.org/page-001.html")) := by
  decide

end Futhorc
